import Mathlib

/-!
# Verification of the `ring_promise` correlation layer

A shallow embedding of the `ring_promise` crate (files `src/lib.rs`,
`src/registry.rs`, `src/traits.rs`) together with proofs of the specified
properties of its Registry and single-threaded worker loop.

Modelling conventions:
* `u64` values are `Nat` with wrapping arithmetic made explicit as `% 2^64`.
* The `HashMap<u64, oneshot::Sender<C>>` of `Registry` is an association
  list whose keys are kept unique by construction; a `oneshot::Sender` is an
  opaque token (`Nat`), and "sending entry through the sender" is recorded as
  the pair `(token, entry)` in the output of `complete`/`batch_complete`.
* The caller-supplied ring (`FullRing` + `SubmissionQueue` + `Submitter`) is
  an abstract state machine `RingOps σ`: `push` mirrors
  `SubmissionQueue::push(&mut self, e) -> Result<(), S>` (`none` = `Ok(())`,
  `some e` = `Err(e)`), `completion` drains the snapshot of currently
  available completion entries, and `submit` is the backend notification.
* The two unbounded loops of the source — `Registry::next_uuid` and the
  worker's push-retry loop — are modelled with explicit fuel; running out of
  fuel is a distinguished outcome, never a fabricated answer.
* The worker's handling of one `Signal` additionally returns a trace of
  events (`Ev`) recording allocations, insertions, push attempts, reaps and
  backend notifications, so that temporal properties of the loop body can be
  stated as properties of the trace.
-/

/-- The number of distinct `u64` values; wrapping arithmetic is mod `U64`. -/
def U64 : Nat := 2 ^ 64

/-- A submission queue entry: the `SubmissionQueueEntry` trait surface
(a readable/writable 64-bit user-data field) plus an opaque payload. -/
structure SEntry where
  ud : Nat
  payload : Nat
deriving DecidableEq

/-- `SubmissionQueueEntry::set_ud`. -/
def SEntry.set_ud (e : SEntry) (ud : Nat) : SEntry :=
  { e with ud := ud }

/-- `SubmissionQueueEntry::get_ud`. -/
def SEntry.get_ud (e : SEntry) : Nat :=
  e.ud

/-- A completion queue entry: the `CompletionQueueEntry` trait surface
(a readable 64-bit user-data field) plus an opaque payload. -/
structure CEntry where
  ud : Nat
  payload : Nat
deriving DecidableEq

/-- `CompletionQueueEntry::get_ud`. -/
def CEntry.get_ud (e : CEntry) : Nat :=
  e.ud

/-! ## Association-list model of `HashMap<u64, oneshot::Sender<C>>` -/

/-- Lookup of a key in the association list (`HashMap::get`/`contains_key`). -/
def lookupK (k : Nat) : List (Nat × Nat) → Option Nat
  | [] => none
  | (k', v) :: t => if k' = k then some v else lookupK k t

/-- Removal of a key from the association list (`HashMap::remove`). -/
def eraseK (k : Nat) : List (Nat × Nat) → List (Nat × Nat)
  | [] => []
  | (k', v) :: t => if k' = k then eraseK k t else (k', v) :: eraseK k t

/-- Map update (`HashMap::insert`): unconditionally replaces any existing
binding of the key. -/
def insertK (k v : Nat) (l : List (Nat × Nat)) : List (Nat × Nat) :=
  (k, v) :: eraseK k l

/-- The registry of `src/registry.rs`: a map from user data to senders plus
the current user-data counter. -/
structure Registry where
  senders : List (Nat × Nat)
  curr_ud : Nat
deriving DecidableEq

namespace Registry

/-- `Registry::new`. -/
def new : Registry :=
  { senders := [], curr_ud := 0 }

/-- `Registry::incr_ud`: return the current user data value and increment the
counter, wrapping on `u64` overflow. -/
def incr_ud (r : Registry) : Nat × Registry :=
  (r.curr_ud, { r with curr_ud := (r.curr_ud + 1) % U64 })

/-- `HashMap::contains_key` on the registry's sender map. -/
def hasKey (r : Registry) (k : Nat) : Bool :=
  (lookupK k r.senders).isSome

/-- The body of `Registry::next_uuid`, with explicit fuel: each step is one
iteration of the `loop` (increment, then break unless the candidate is still
a key). `none` means the loop would still be running after `fuel` steps. -/
def nextUuidAux : Nat → Registry → Option (Nat × Registry)
  | 0, _ => none
  | fuel + 1, r =>
    let p := r.incr_ud
    if p.2.hasKey p.1 then nextUuidAux fuel p.2 else some (p.1, p.2)

/-- `Registry::next_uuid`. Fuel `U64` lets the wrapping counter try every
`u64` value once, which is exactly the reach of the source's `loop`; a
`none` result corresponds to the pathological divergence when all `2^64`
identifiers are simultaneously present. -/
def next_uuid (r : Registry) : Option (Nat × Registry) :=
  nextUuidAux U64 r

/-- `Registry::insert`: store the sender under the user-data key,
unconditionally replacing an existing binding. -/
def insert (r : Registry) (user_data sender : Nat) : Registry :=
  { r with senders := insertK user_data sender r.senders }

/-- `Registry::complete`: remove the sender registered for the entry's user
data and send the entry through it; when no sender is registered the entry
is silently ignored. The delivery is returned as `(sender, entry)`. -/
def complete (r : Registry) (entry : CEntry) : Registry × Option (Nat × CEntry) :=
  match lookupK entry.get_ud r.senders with
  | some s => ({ r with senders := eraseK entry.get_ud r.senders }, some (s, entry))
  | none => (r, none)

/-- `Registry::batch_complete`: `complete` each entry in iteration order,
collecting the deliveries that fired. -/
def batch_complete (r : Registry) : List CEntry → Registry × List (Nat × CEntry)
  | [] => (r, [])
  | c :: t =>
    let p := r.complete c
    let q := p.1.batch_complete t
    match p.2 with
    | some d => (q.1, d :: q.2)
    | none => (q.1, q.2)

end Registry

/-! ## The worker loop of `PRingSender::thread_fn_generator` -/

/-- The caller-supplied ring as an abstract state machine over an opaque
state type `σ` (the `FullRing`/`SubmissionQueue`/`Submitter` capabilities).
`push st e = (st', none)` models `Ok(())`; `push st e = (st', some e')`
models `Err(e')` (queue full, entry handed back). `completion` drains the
snapshot of currently available completion entries. `submit` notifies the
backend. -/
structure RingOps (σ : Type) where
  push : σ → SEntry → σ × Option SEntry
  completion : σ → σ × List CEntry
  submit : σ → σ

/-- The state owned by the worker thread: the ring and the registry. -/
structure WState (σ : Type) where
  ring : σ
  reg : Registry
deriving DecidableEq

/-- A `Signal` received by the worker thread (`Signal::Entry` carries the
submission entry and the oneshot sender token, `Signal::Reap` nothing). -/
inductive Signal where
  | entry (e : SEntry) (tx : Nat)
  | reap
deriving DecidableEq

/-- One observable action of the worker while processing a signal.
`ins` and the push events also record the registry at that moment;
`reapEv` records the completions drained and the deliveries fired. -/
inductive Ev where
  | alloc (id : Nat)
  | ins (id : Nat) (rg : Registry)
  | pushOk (e : SEntry) (rg : Registry)
  | pushFail (e : SEntry) (rg : Registry)
  | reapEv (cs : List CEntry) (ds : List (Nat × CEntry))
  | notify
deriving DecidableEq

/-- Outcome of the worker's push-retry loop. `fuelOut` keeps the state, the
entry holder and the trace at the point the fuel ran out; `stuck` is the
outcome of unwrapping an empty holder (the `unwrap` on line 120 of
`lib.rs` aborting), kept distinct so that its unreachability can be proved. -/
inductive LoopRes (σ : Type) where
  | ok (st : WState σ) (evs : List Ev)
  | fuelOut (st : WState σ) (holder : Option SEntry) (evs : List Ev)
  | stuck
deriving DecidableEq

/-- The closure `reap` of `thread_fn_generator`:
`registry.batch_complete(ring.completion())`. -/
def reapStep {σ : Type} (R : RingOps σ) (st : WState σ) : WState σ × Ev :=
  let p := R.completion st.ring
  let q := st.reg.batch_complete p.2
  (⟨p.1, q.1⟩, .reapEv p.2 q.2)

/-- The `while let Err(failure_entry) = ring.submission().push(...)` loop of
`thread_fn_generator` (lib.rs lines 113–128), with explicit fuel. The holder
models `entry_holder`; each iteration takes and unwraps it, attempts the
push, and on failure refills it with the returned entry, reaps, and notifies
the backend. -/
def pushLoop {σ : Type} (R : RingOps σ) : Nat → WState σ → Option SEntry → LoopRes σ
  | 0, st, holder => .fuelOut st holder []
  | fuel + 1, st, holder =>
    match holder with
    | none => .stuck
    | some e =>
      match R.push st.ring e with
      | (r', none) => .ok ⟨r', st.reg⟩ [.pushOk e st.reg]
      | (r', some e') =>
        let s1 := reapStep R ⟨r', st.reg⟩
        let s2 : WState σ := ⟨R.submit s1.1.ring, s1.1.reg⟩
        match pushLoop R fuel s2 (some e') with
        | .ok stf evs => .ok stf (.pushFail e st.reg :: s1.2 :: .notify :: evs)
        | .fuelOut stf h evs => .fuelOut stf h (.pushFail e st.reg :: s1.2 :: .notify :: evs)
        | .stuck => .stuck

/-- The body of the worker's `for signal in receiver` loop
(lib.rs lines 104–138): processing of one signal, returning the new worker
state and the trace of events. `none` means the push-retry loop did not
finish within `fuel` iterations (or `next_uuid` diverged). -/
def handleSignal {σ : Type} (R : RingOps σ) (fuel : Nat) (st : WState σ) :
    Signal → Option (WState σ × List Ev)
  | .entry e tx =>
    match st.reg.next_uuid with
    | none => none
    | some (id, reg1) =>
      let e1 := e.set_ud id
      let reg2 := reg1.insert id tx
      match pushLoop R fuel ⟨st.ring, reg2⟩ (some e1) with
      | .ok st1 evs =>
        let st2 : WState σ := ⟨R.submit st1.ring, st1.reg⟩
        let s3 := reapStep R st2
        some (s3.1, .alloc id :: .ins id reg1 :: evs ++ [.notify, s3.2])
      | _ => none
  | .reap =>
    let s := reapStep R st
    some (s.1, [s.2])


/-! ## Predicates used by the statements -/

/-- The documented contract of `SubmissionQueue::push` (traits.rs line 20):
a failed push returns the entry it was given. -/
def PushContract {σ : Type} (R : RingOps σ) : Prop :=
  ∀ s e s' e', R.push s e = (s', some e') → e' = e

/-- Recognizer for successful-push events. -/
def isPushOk : Ev → Bool
  | .pushOk _ _ => true
  | _ => false

/-- Recognizer for events that are submission side-effects: identifier
allocation, registry insertion, push attempts and backend notification. -/
def isSubmissionEffect : Ev → Bool
  | .alloc _ => true
  | .ins _ _ => true
  | .pushOk _ _ => true
  | .pushFail _ _ => true
  | .notify => true
  | .reapEv _ _ => false

/-- The trace shape of the retry loop on entry `e`: zero or more rounds of
"failed push of `e`, reap, notify the backend", ended by one successful push
of the same `e`. -/
inductive RetryShape (e : SEntry) : List Ev → Prop
  | done (rg : Registry) : RetryShape e [Ev.pushOk e rg]
  | step (rg : Registry) (cs : List CEntry) (ds : List (Nat × CEntry)) (tl : List Ev)
      (h : RetryShape e tl) :
      RetryShape e (Ev.pushFail e rg :: Ev.reapEv cs ds :: Ev.notify :: tl)

/-- Every completion drained before the first successful push of the trace
has user data different from `id`: the ring does not produce a completion
bearing `id` before the submission carrying `id` has been accepted. -/
def DrainsAvoidBefore (id : Nat) : List Ev → Prop
  | [] => True
  | Ev.reapEv cs _ :: t => (∀ c ∈ cs, CEntry.get_ud c ≠ id) ∧ DrainsAvoidBefore id t
  | Ev.pushOk _ _ :: _ => True
  | _ :: t => DrainsAvoidBefore id t

/-- Whether `u` is the user data of some entry in the list. -/
def udMem (u : Nat) (cs : List CEntry) : Bool :=
  cs.any (fun c => c.ud == u)

/-- The evolution of the ghost set of outstanding identifiers — submissions
accepted onto the ring whose completion the worker has not yet observed — as
dictated by one event: a successful push makes its entry's identifier
outstanding; draining a completion makes its identifier no longer
outstanding. -/
def updOut (out : List Nat) : Ev → List Nat
  | Ev.pushOk e _ => SEntry.get_ud e :: out
  | Ev.reapEv cs _ => out.filter (fun u => !udMem u cs)
  | _ => out

/-- The ghost set of outstanding identifiers after a trace of events. -/
def runOut (out : List Nat) (evs : List Ev) : List Nat :=
  evs.foldl updOut out

section Sanity

/-- A toy ring for concrete evaluation: the state is a pair
(attempt counter, scripted completion batches). The push fails while the
counter is zero, handing the entry back unchanged; `completion` pops the
next scripted batch. -/
def toyRing : RingOps (Nat × List (List CEntry)) where
  push := fun s e => if s.1 = 0 then ((1, s.2), some e) else ((s.1 + 1, s.2), none)
  completion := fun s => ((s.1, s.2.tail), s.2.headD [])
  submit := fun s => s

example : Registry.next_uuid Registry.new = some (0, { senders := [], curr_ud := 1 }) := rfl

example :
    Registry.next_uuid { senders := [(0, 7)], curr_ud := 0 } =
      some (1, { senders := [(0, 7)], curr_ud := 2 }) := rfl

example :
    Registry.complete { senders := [(3, 7)], curr_ud := 4 } ⟨3, 99⟩ =
      ({ senders := [], curr_ud := 4 }, some (7, ⟨3, 99⟩)) := rfl

example :
    Registry.batch_complete { senders := [(3, 7)], curr_ud := 4 } [⟨5, 0⟩, ⟨3, 1⟩, ⟨3, 2⟩] =
      ({ senders := [], curr_ud := 4 }, [(7, ⟨3, 1⟩)]) := rfl

example :
    handleSignal toyRing 3 ⟨(1, [[⟨0, 5⟩]]), Registry.new⟩ (.entry ⟨42, 8⟩ 9) =
      some (⟨(2, []), { senders := [], curr_ud := 1 }⟩,
        [.alloc 0, .ins 0 { senders := [], curr_ud := 1 },
         .pushOk ⟨0, 8⟩ { senders := [(0, 9)], curr_ud := 1 },
         .notify, .reapEv [⟨0, 5⟩] [(9, ⟨0, 5⟩)]]) := rfl

example :
    handleSignal toyRing 3 ⟨(0, [[], []]), Registry.new⟩ (.entry ⟨42, 8⟩ 9) =
      some (⟨(2, []), { senders := [(0, 9)], curr_ud := 1 }⟩,
        [.alloc 0, .ins 0 { senders := [], curr_ud := 1 },
         .pushFail ⟨0, 8⟩ { senders := [(0, 9)], curr_ud := 1 },
         .reapEv [] [], .notify,
         .pushOk ⟨0, 8⟩ { senders := [(0, 9)], curr_ud := 1 },
         .notify, .reapEv [] []]) := rfl

example :
    handleSignal toyRing 3 ⟨(5, [[⟨2, 0⟩]]), { senders := [(2, 7)], curr_ud := 3 }⟩ .reap =
      some (⟨(5, []), { senders := [], curr_ud := 3 }⟩,
        [.reapEv [⟨2, 0⟩] [(7, ⟨2, 0⟩)]]) := rfl

end Sanity

/-! ## Association-list lemmas -/

theorem lookupK_eraseK (k x : Nat) (l : List (Nat × Nat)) :
    lookupK x (eraseK k l) = if x = k then none else lookupK x l := by
  induction l with
  | nil => by_cases hx : x = k <;> simp [eraseK, lookupK, hx]
  | cons p t ih =>
    obtain ⟨k', v⟩ := p
    by_cases hk : k' = k
    · subst hk
      by_cases hx : x = k'
      · subst hx
        simp [eraseK, lookupK, ih]
      · have hx' : k' ≠ x := fun h => hx h.symm
        simp [eraseK, lookupK, ih, hx, hx']
    · by_cases hx : k' = x
      · subst hx
        have hxk : ¬ k' = k := hk
        simp [eraseK, lookupK, hk, hxk]
      · simp [eraseK, lookupK, hk, hx, ih]

theorem lookupK_insertK (k v x : Nat) (l : List (Nat × Nat)) :
    lookupK x (insertK k v l) = if x = k then some v else lookupK x l := by
  unfold insertK
  by_cases hx : x = k
  · subst hx
    simp [lookupK]
  · have hx' : k ≠ x := fun h => hx h.symm
    simp [lookupK, hx, hx', lookupK_eraseK]

theorem lookupK_mem_keys {x v : Nat} {l : List (Nat × Nat)} (h : lookupK x l = some v) :
    x ∈ l.map Prod.fst := by
  induction l with
  | nil => simp [lookupK] at h
  | cons p t ih =>
    obtain ⟨k', v'⟩ := p
    by_cases hk : k' = x
    · simp [hk]
    · simp only [lookupK, if_neg hk] at h
      simp [ih h]

/-! ## Lemmas about `Registry.complete` and `Registry.batch_complete` -/

theorem complete_hasKey (r : Registry) (c : CEntry) (x : Nat) :
    ((r.complete c).1.hasKey x = true) ↔ (r.hasKey x = true ∧ c.ud ≠ x) := by
  unfold Registry.complete
  cases h : lookupK c.get_ud r.senders with
  | none =>
    simp only [CEntry.get_ud] at h
    simp only [Registry.hasKey]
    constructor
    · intro hl
      refine ⟨hl, fun hcx => ?_⟩
      rw [hcx] at h
      rw [h] at hl
      simp at hl
    · exact fun hp => hp.1
  | some s =>
    simp only [Registry.hasKey, lookupK_eraseK, CEntry.get_ud]
    by_cases hx : x = c.ud
    · simp [hx]
    · have hx' : c.ud ≠ x := fun h' => hx h'.symm
      simp [hx, hx']

theorem complete_lookup_of_ne (r : Registry) (c : CEntry) (x : Nat) (hx : c.ud ≠ x) :
    lookupK x (r.complete c).1.senders = lookupK x r.senders := by
  unfold Registry.complete
  cases h : lookupK c.get_ud r.senders with
  | none => simp [h]
  | some s =>
    have hx' : ¬ x = c.ud := fun h' => hx h'.symm
    simp [h, lookupK_eraseK, CEntry.get_ud, hx']

theorem complete_curr_ud (r : Registry) (c : CEntry) :
    (r.complete c).1.curr_ud = r.curr_ud := by
  unfold Registry.complete
  cases h : lookupK c.get_ud r.senders <;> simp [h]

theorem batch_complete_cons_fst (r : Registry) (c : CEntry) (t : List CEntry) :
    (r.batch_complete (c :: t)).1 = ((r.complete c).1.batch_complete t).1 := by
  conv_lhs => rw [Registry.batch_complete]
  cases h : (r.complete c).2 <;> simp [h]

theorem batch_complete_hasKey (r : Registry) (cs : List CEntry) (x : Nat) :
    ((r.batch_complete cs).1.hasKey x = true) ↔
      (r.hasKey x = true ∧ ∀ c ∈ cs, c.ud ≠ x) := by
  induction cs generalizing r with
  | nil => simp [Registry.batch_complete]
  | cons c t ih =>
    rw [batch_complete_cons_fst, ih, complete_hasKey]
    simp only [List.forall_mem_cons]
    tauto

theorem batch_complete_lookup (r : Registry) (cs : List CEntry) (x : Nat)
    (hx : ∀ c ∈ cs, c.ud ≠ x) :
    lookupK x (r.batch_complete cs).1.senders = lookupK x r.senders := by
  induction cs generalizing r with
  | nil => simp [Registry.batch_complete]
  | cons c t ih =>
    rw [batch_complete_cons_fst]
    rw [ih (r.complete c).1 (fun c' hc' => hx c' (by simp [hc']))]
    exact complete_lookup_of_ne r c x (hx c (by simp))

theorem batch_complete_curr_ud (r : Registry) (cs : List CEntry) :
    (r.batch_complete cs).1.curr_ud = r.curr_ud := by
  induction cs generalizing r with
  | nil => simp [Registry.batch_complete]
  | cons c t ih =>
    rw [batch_complete_cons_fst, ih, complete_curr_ud]

/-! ## Lemmas about `Registry.next_uuid` -/

theorem U64_pos : 0 < U64 := by decide

theorem nextUuidAux_spec :
    ∀ (fuel : Nat) (r : Registry) (id : Nat) (r' : Registry), r.curr_ud < U64 →
      Registry.nextUuidAux fuel r = some (id, r') →
      r'.senders = r.senders ∧ r.hasKey id = false ∧
      ∃ k, k < fuel ∧ id = (r.curr_ud + k) % U64 ∧
        (∀ j, j < k → r.hasKey ((r.curr_ud + j) % U64) = true) ∧
        r'.curr_ud = (r.curr_ud + k + 1) % U64 := by
  intro fuel
  induction fuel with
  | zero =>
    intro r id r' hc h
    simp [Registry.nextUuidAux] at h
  | succ fuel ih =>
    intro r id r' hc h
    simp only [Registry.nextUuidAux, Registry.incr_ud, Registry.hasKey] at h
    split at h
    · rename_i htrue
      have hc2 : (r.curr_ud + 1) % U64 < U64 := Nat.mod_lt _ U64_pos
      obtain ⟨hs, hk, k, hkf, hid, hskip, hcu⟩ := ih _ _ _ hc2 h
      refine ⟨hs, ?_, k + 1, by omega, ?_, ?_, ?_⟩
      · exact hk
      · rw [hid]
        show ((r.curr_ud + 1) % U64 + k) % U64 = (r.curr_ud + (k + 1)) % U64
        rw [Nat.mod_add_mod]
        congr 1
        omega
      · intro j hj
        cases j with
        | zero =>
          have : (r.curr_ud + 0) % U64 = r.curr_ud := by
            rw [Nat.add_zero, Nat.mod_eq_of_lt hc]
          rw [this]
          simpa [Registry.hasKey] using htrue
        | succ j' =>
          have hj' : j' < k := by omega
          have := hskip j' hj'
          have harg : ((r.curr_ud + 1) % U64 + j') % U64 = (r.curr_ud + (j' + 1)) % U64 := by
            rw [Nat.mod_add_mod]
            congr 1
            omega
          simpa [Registry.hasKey, harg] using this
      · rw [hcu]
        show ((r.curr_ud + 1) % U64 + k + 1) % U64 = (r.curr_ud + (k + 1) + 1) % U64
        rw [Nat.add_assoc, Nat.mod_add_mod]
        congr 1
        omega
    · rename_i hfalse
      have hp : id = r.curr_ud ∧ r' = { senders := r.senders, curr_ud := (r.curr_ud + 1) % U64 } := by
        cases h
        exact ⟨rfl, rfl⟩
      obtain ⟨hid, hr'⟩ := hp
      subst hid
      subst hr'
      refine ⟨rfl, ?_, 0, by omega, ?_, by omega, ?_⟩
      · simpa [Registry.hasKey] using hfalse
      · rw [Nat.add_zero, Nat.mod_eq_of_lt hc]
      · rfl

theorem nextUuidAux_fresh :
    ∀ (fuel : Nat) (r : Registry) (id : Nat) (r' : Registry),
      Registry.nextUuidAux fuel r = some (id, r') →
      r'.senders = r.senders ∧ r.hasKey id = false := by
  intro fuel
  induction fuel with
  | zero =>
    intro r id r' h
    simp [Registry.nextUuidAux] at h
  | succ fuel ih =>
    intro r id r' h
    simp only [Registry.nextUuidAux, Registry.incr_ud, Registry.hasKey] at h
    split at h
    · obtain ⟨hs, hk⟩ := ih _ _ _ h
      exact ⟨hs, hk⟩
    · rename_i hfalse
      have hp : id = r.curr_ud ∧ r' = { senders := r.senders, curr_ud := (r.curr_ud + 1) % U64 } := by
        cases h
        exact ⟨rfl, rfl⟩
      obtain ⟨hid, hr'⟩ := hp
      subst hid
      subst hr'
      exact ⟨rfl, by simpa [Registry.hasKey] using hfalse⟩

theorem nextUuidAux_none :
    ∀ (fuel : Nat) (r : Registry), r.curr_ud < U64 →
      Registry.nextUuidAux fuel r = none →
      ∀ i, i < fuel → r.hasKey ((r.curr_ud + i) % U64) = true := by
  intro fuel
  induction fuel with
  | zero =>
    intro r hc h i hi
    omega
  | succ fuel ih =>
    intro r hc h i hi
    simp only [Registry.nextUuidAux, Registry.incr_ud, Registry.hasKey] at h
    split at h
    · rename_i htrue
      cases i with
      | zero =>
        have harg : (r.curr_ud + 0) % U64 = r.curr_ud := by
          rw [Nat.add_zero, Nat.mod_eq_of_lt hc]
        rw [harg]
        simpa [Registry.hasKey] using htrue
      | succ j =>
        have hc2 : (r.curr_ud + 1) % U64 < U64 := Nat.mod_lt _ U64_pos
        have := ih _ hc2 h j (by omega)
        have harg : ((r.curr_ud + 1) % U64 + j) % U64 = (r.curr_ud + (j + 1)) % U64 := by
          rw [Nat.mod_add_mod]
          congr 1
          omega
        simpa [Registry.hasKey, harg] using this
    · cases h

/-! ## Claim C3 -/

/-- C3: for every registry state (with its counter in `u64` range, as the
Rust type enforces), a result of `next_uuid` is an identifier that is not
currently present as a key of the Registry; it is computed by the wrapping
64-bit counter, skipping over every value still present as a key: the result
is `(curr_ud + k) % 2^64` for some `k`, every earlier counter value
`(curr_ud + j) % 2^64`, `j < k`, is still a key, and the counter resumes
after the returned value. -/
theorem next_uuid_fresh_wrapping (r : Registry) (id : Nat) (r' : Registry)
    (hc : r.curr_ud < U64) (h : r.next_uuid = some (id, r')) :
    r.hasKey id = false ∧ r'.senders = r.senders ∧
    ∃ k, k < U64 ∧ id = (r.curr_ud + k) % U64 ∧
      (∀ j, j < k → r.hasKey ((r.curr_ud + j) % U64) = true) ∧
      r'.curr_ud = (r.curr_ud + k + 1) % U64 := by
  obtain ⟨hs, hk, spec⟩ := nextUuidAux_spec U64 r id r' hc h
  exact ⟨hk, hs, spec⟩

/-- Witness for C3: on the registry holding key `0` with counter `0`, the
allocator skips `0` and returns `1`. -/
theorem next_uuid_fresh_wrapping_witness :
    Registry.hasKey { senders := [(0, 7)], curr_ud := 0 } 1 = false ∧
    ([(0, 7)] : List (Nat × Nat)) = [(0, 7)] ∧
    ∃ k, k < U64 ∧ 1 = (0 + k) % U64 ∧
      (∀ j, j < k → Registry.hasKey { senders := [(0, 7)], curr_ud := 0 } ((0 + j) % U64) = true) ∧
      2 = (0 + k + 1) % U64 :=
  next_uuid_fresh_wrapping { senders := [(0, 7)], curr_ud := 0 } 1
    { senders := [(0, 7)], curr_ud := 2 } (by decide) rfl

/-! ## Claim C9 -/

/-- C9: `next_uuid` terminates under the precondition that the Registry holds
strictly fewer than `2^64` keys: within `2^64` wrapping increments — the
exact reach of the source's `loop` — it finds an absent key and returns. -/
theorem next_uuid_terminates (r : Registry) (hc : r.curr_ud < U64)
    (hl : r.senders.length < U64) : (r.next_uuid).isSome = true := by
  cases h : r.next_uuid with
  | some p => rfl
  | none =>
    exfalso
    have hall := nextUuidAux_none U64 r hc h
    have hinj : Set.InjOn (fun i => (r.curr_ud + i) % U64) ↑(Finset.range U64) := by
      intro i hi j hj hf
      simp only [Finset.coe_range, Set.mem_Iio] at hi hj
      have hm : Nat.ModEq U64 i j := Nat.ModEq.add_left_cancel' r.curr_ud hf
      have hmm : i % U64 = j % U64 := hm
      rwa [Nat.mod_eq_of_lt hi, Nat.mod_eq_of_lt hj] at hmm
    have hsub : (Finset.range U64).image (fun i => (r.curr_ud + i) % U64) ⊆
        (r.senders.map Prod.fst).toFinset := by
      intro x hx
      rw [Finset.mem_image] at hx
      obtain ⟨i, hi, rfl⟩ := hx
      have hk := hall i (Finset.mem_range.mp hi)
      rw [List.mem_toFinset]
      unfold Registry.hasKey at hk
      cases hlk : lookupK ((r.curr_ud + i) % U64) r.senders with
      | none => rw [hlk] at hk; simp at hk
      | some v => exact lookupK_mem_keys hlk
    have h1 : U64 ≤ ((r.senders.map Prod.fst).toFinset).card := by
      have hcimg : ((Finset.range U64).image (fun i => (r.curr_ud + i) % U64)).card = U64 := by
        rw [Finset.card_image_of_injOn hinj, Finset.card_range]
      calc U64 = ((Finset.range U64).image (fun i => (r.curr_ud + i) % U64)).card := hcimg.symm
        _ ≤ ((r.senders.map Prod.fst).toFinset).card := Finset.card_le_card hsub
    have h2 : ((r.senders.map Prod.fst).toFinset).card ≤ r.senders.length := by
      calc ((r.senders.map Prod.fst).toFinset).card ≤ (r.senders.map Prod.fst).length :=
            (r.senders.map Prod.fst).toFinset_card_le
        _ = r.senders.length := by simp
    omega

/-- Witness for C9: the empty registry holds fewer than `2^64` keys, so the
allocator terminates on it. -/
theorem next_uuid_terminates_witness : (Registry.next_uuid Registry.new).isSome = true :=
  next_uuid_terminates Registry.new (by decide) (by decide)

/-! ## Deliveries of `batch_complete` -/

theorem complete_eq_none (r : Registry) (c : CEntry)
    (h : lookupK c.get_ud r.senders = none) : r.complete c = (r, none) := by
  unfold Registry.complete
  rw [h]

theorem complete_eq_some (r : Registry) (c : CEntry) (s : Nat)
    (h : lookupK c.get_ud r.senders = some s) :
    r.complete c = ({ r with senders := eraseK c.get_ud r.senders }, some (s, c)) := by
  unfold Registry.complete
  rw [h]

theorem complete_snd_some {r : Registry} {c : CEntry} {d : Nat × CEntry}
    (h : (r.complete c).2 = some d) : d.2 = c ∧ r.hasKey c.ud = true := by
  unfold Registry.complete at h
  cases hlk : lookupK c.get_ud r.senders with
  | none =>
    rw [hlk] at h
    simp at h
  | some s =>
    rw [hlk] at h
    simp only at h
    obtain rfl := Option.some.inj h
    exact ⟨rfl, by simp [Registry.hasKey, CEntry.get_ud] at hlk ⊢; simp [hlk]⟩

theorem batch_complete_cons_snd_none {r : Registry} {c : CEntry} {t : List CEntry}
    (h : (r.complete c).2 = none) :
    (r.batch_complete (c :: t)).2 = ((r.complete c).1.batch_complete t).2 := by
  conv_lhs => rw [Registry.batch_complete]
  simp [h]

theorem batch_complete_cons_snd_some {r : Registry} {c : CEntry} {t : List CEntry}
    {d : Nat × CEntry} (h : (r.complete c).2 = some d) :
    (r.batch_complete (c :: t)).2 = d :: ((r.complete c).1.batch_complete t).2 := by
  conv_lhs => rw [Registry.batch_complete]
  simp [h]

theorem batch_complete_delivered_hasKey (r : Registry) (cs : List CEntry) :
    ∀ d ∈ (r.batch_complete cs).2, r.hasKey d.2.ud = true := by
  induction cs generalizing r with
  | nil => simp [Registry.batch_complete]
  | cons c t ih =>
    intro d hd
    cases h : (r.complete c).2 with
    | none =>
      rw [batch_complete_cons_snd_none h] at hd
      have hk := ih (r.complete c).1 d hd
      rw [complete_hasKey] at hk
      exact hk.1
    | some d0 =>
      rw [batch_complete_cons_snd_some h] at hd
      rcases List.mem_cons.mp hd with hd0 | hdt
      · subst hd0
        obtain ⟨hc2, hk⟩ := complete_snd_some h
        rw [hc2]
        exact hk
      · have hk := ih (r.complete c).1 d hdt
        rw [complete_hasKey] at hk
        exact hk.1

theorem batch_complete_deliveries_nodup (r : Registry) (cs : List CEntry) :
    ((r.batch_complete cs).2.map (fun d => d.2.ud)).Nodup := by
  induction cs generalizing r with
  | nil => simp [Registry.batch_complete]
  | cons c t ih =>
    cases h : (r.complete c).2 with
    | none =>
      rw [batch_complete_cons_snd_none h]
      exact ih _
    | some d0 =>
      rw [batch_complete_cons_snd_some h]
      simp only [List.map_cons, List.nodup_cons]
      refine ⟨?_, ih _⟩
      intro hmem
      rw [List.mem_map] at hmem
      obtain ⟨d, hd, hud⟩ := hmem
      have hk := batch_complete_delivered_hasKey (r.complete c).1 t d hd
      obtain ⟨hc2, _⟩ := complete_snd_some h
      rw [complete_hasKey] at hk
      apply hk.2
      rw [hud, hc2]

theorem batch_first_delivery (r : Registry) (c : CEntry) (s : Nat) (cs : List CEntry)
    (h : lookupK c.get_ud r.senders = some s) :
    ((r.batch_complete (c :: cs)).2).head? = some (s, c) := by
  have hc := complete_eq_some r c s h
  have h2 : (r.complete c).2 = some (s, c) := by rw [hc]
  rw [batch_complete_cons_snd_some h2]
  rfl

/-! ## Claim C6 -/

/-- C6: `complete` on an entry whose tracking id matches no Registry key is a
silent no-op — it returns normally, leaves the Registry (hence every other
registered reply channel) unchanged and delivers nothing; on a matching id
the reply channel is removed and the entry delivered through it. In
`batch_complete`, entries are processed in iteration order, no id is
delivered twice (the first delivery wins, later duplicates are dropped), and
a leading matching entry is the delivery that fires first. -/
theorem complete_discards_unmatched_first_wins :
    (∀ (r : Registry) (c : CEntry), lookupK c.get_ud r.senders = none →
      r.complete c = (r, none)) ∧
    (∀ (r : Registry) (c : CEntry) (s : Nat), lookupK c.get_ud r.senders = some s →
      r.complete c = ({ r with senders := eraseK c.get_ud r.senders }, some (s, c))) ∧
    (∀ (r : Registry) (cs : List CEntry),
      ((r.batch_complete cs).2.map (fun d => CEntry.get_ud d.2)).Nodup) ∧
    (∀ (r : Registry) (c : CEntry) (s : Nat) (cs : List CEntry),
      lookupK c.get_ud r.senders = some s →
      ((r.batch_complete (c :: cs)).2).head? = some (s, c)) :=
  ⟨complete_eq_none, complete_eq_some,
    fun r cs => batch_complete_deliveries_nodup r cs,
    batch_first_delivery⟩

/-- Witness for C6: an unmatched completion leaves the registry untouched,
and a batch carrying the same id twice fires only the first. -/
theorem complete_discards_unmatched_first_wins_witness :
    Registry.complete { senders := [(1, 7)], curr_ud := 0 } ⟨5, 9⟩ =
      ({ senders := [(1, 7)], curr_ud := 0 }, none) ∧
    ((Registry.batch_complete { senders := [(3, 7)], curr_ud := 0 }
        [⟨3, 1⟩, ⟨3, 2⟩]).2.map (fun d => CEntry.get_ud d.2)).Nodup ∧
    ((Registry.batch_complete { senders := [(3, 7)], curr_ud := 0 }
        [⟨3, 1⟩, ⟨3, 2⟩]).2).head? = some (7, ⟨3, 1⟩) :=
  ⟨complete_discards_unmatched_first_wins.1 _ _ rfl,
    complete_discards_unmatched_first_wins.2.2.1 _ _,
    complete_discards_unmatched_first_wins.2.2.2 _ _ 7 _ rfl⟩

/-! ## Claim C10 -/

/-- C10: in the worker's push-retry loop the entry holder is `Some`
at every point where it is taken and unwrapped — it starts filled and is
refilled with the returned entry after every failed push — so the unwrap
inside the loop can never abort, for any ring behavior and any sequence of
push failures. -/
theorem pushLoop_holder_always_some {σ : Type} (R : RingOps σ) :
    ∀ (fuel : Nat) (st : WState σ) (e : SEntry),
      pushLoop R fuel st (some e) ≠ LoopRes.stuck := by
  intro fuel
  induction fuel with
  | zero =>
    intro st e h
    simp [pushLoop] at h
  | succ fuel ih =>
    intro st e h
    simp only [pushLoop] at h
    split at h
    · simp at h
    · split at h
      · simp at h
      · simp at h
      · rename_i hrec
        exact ih _ _ hrec

/-- Witness for C10: a concrete run of the loop on the toy ring does not hit
the empty-holder unwrap. -/
theorem pushLoop_holder_always_some_witness :
    pushLoop toyRing 2 ⟨(0, []), Registry.new⟩ (some ⟨0, 8⟩) ≠ LoopRes.stuck :=
  pushLoop_holder_always_some toyRing 2 ⟨(0, []), Registry.new⟩ ⟨0, 8⟩

/-! ## Trace lemmas about the push-retry loop -/

theorem reapStep_fst {σ : Type} (R : RingOps σ) (st : WState σ) :
    (reapStep R st).1 =
      ⟨(R.completion st.ring).1, (st.reg.batch_complete (R.completion st.ring).2).1⟩ := rfl

theorem reapStep_snd {σ : Type} (R : RingOps σ) (st : WState σ) :
    (reapStep R st).2 =
      Ev.reapEv (R.completion st.ring).2 (st.reg.batch_complete (R.completion st.ring).2).2 := rfl

/-- The toy ring satisfies the documented push contract: a failed push
returns the entry it was given. -/
theorem toyRing_contract : PushContract toyRing := by
  intro s e s' e' h
  simp only [toyRing] at h
  split at h
  · injection h with h1 h2
    injection h2 with h3
    exact h3.symm
  · injection h with h1 h2
    exact Option.noConfusion h2

/-- A successful run of the loop starts with a push attempt (successful or
failed) carrying exactly the entry the loop was given, with the registry of
that moment recorded. -/
theorem pushLoop_head {σ : Type} (R : RingOps σ) (fuel : Nat) (st st' : WState σ)
    (e : SEntry) (evs : List Ev) (h : pushLoop R fuel st (some e) = .ok st' evs) :
    evs.head? = some (.pushOk e st.reg) ∨ evs.head? = some (.pushFail e st.reg) := by
  cases fuel with
  | zero => simp [pushLoop] at h
  | succ fuel =>
    simp only [pushLoop] at h
    split at h
    · injection h with h1 h2
      subst h2
      left
      rfl
    · split at h
      · injection h with h1 h2
        subst h2
        right
        rfl
      · exact absurd h (by simp)
      · exact absurd h (by simp)

/-- A successful run of the loop ends with its unique successful push: the
trace is some prefix without successful pushes followed by one `pushOk`. -/
theorem pushLoop_last_push {σ : Type} (R : RingOps σ) :
    ∀ (fuel : Nat) (st st' : WState σ) (e : SEntry) (evs : List Ev),
      pushLoop R fuel st (some e) = .ok st' evs →
      ∃ pre e1 rg, evs = pre ++ [.pushOk e1 rg] ∧ pre.countP isPushOk = 0 := by
  intro fuel
  induction fuel with
  | zero =>
    intro st st' e evs h
    simp [pushLoop] at h
  | succ fuel ih =>
    intro st st' e evs h
    simp only [pushLoop] at h
    split at h
    · injection h with h1 h2
      subst h2
      exact ⟨[], e, st.reg, rfl, rfl⟩
    · rename_i r' e' hpush
      split at h
      · rename_i stf evsf hrec
        injection h with h1 h2
        subst h2
        obtain ⟨pre, e1, rg, hevs, hcnt⟩ := ih _ _ _ _ hrec
        refine ⟨.pushFail e st.reg :: (reapStep R ⟨r', st.reg⟩).2 :: .notify :: pre,
          e1, rg, ?_, ?_⟩
        · rw [hevs]
          rfl
        · simp [List.countP_cons, isPushOk, hcnt, reapStep_snd]
      · exact absurd h (by simp)
      · exact absurd h (by simp)

/-- The loop never allocates or inserts: its trace holds no `alloc` and no
`ins` event. -/
theorem pushLoop_no_ins {σ : Type} (R : RingOps σ) :
    ∀ (fuel : Nat) (st st' : WState σ) (e : SEntry) (evs : List Ev),
      pushLoop R fuel st (some e) = .ok st' evs →
      ∀ ev ∈ evs, (∀ id rg, ev ≠ Ev.ins id rg) ∧ (∀ id, ev ≠ Ev.alloc id) := by
  intro fuel
  induction fuel with
  | zero =>
    intro st st' e evs h
    simp [pushLoop] at h
  | succ fuel ih =>
    intro st st' e evs h
    simp only [pushLoop] at h
    split at h
    · injection h with h1 h2
      subst h2
      intro ev hev
      simp at hev
      subst hev
      simp
    · split at h
      · rename_i stf evsf hrec
        injection h with h1 h2
        subst h2
        intro ev hev
        rcases List.mem_cons.mp hev with rfl | hev
        · simp
        rcases List.mem_cons.mp hev with rfl | hev
        · rw [reapStep_snd]
          simp
        rcases List.mem_cons.mp hev with rfl | hev
        · simp
        · exact ih _ _ _ _ hrec ev hev
      · exact absurd h (by simp)
      · exact absurd h (by simp)

/-! ## Decomposition of Entry-signal processing -/

/-- Processing an Entry signal decomposes into: allocation via `next_uuid`,
stamping, insertion, the push-retry loop, and the final notify-and-reap. -/
theorem handleSignal_entry_decomp {σ : Type} (R : RingOps σ) (fuel : Nat)
    (st st' : WState σ) (e : SEntry) (tx : Nat) (evs : List Ev)
    (h : handleSignal R fuel st (.entry e tx) = some (st', evs)) :
    ∃ id reg1 st1 loopEvs,
      st.reg.next_uuid = some (id, reg1) ∧
      pushLoop R fuel ⟨st.ring, reg1.insert id tx⟩ (some (e.set_ud id)) = .ok st1 loopEvs ∧
      st' = (reapStep R ⟨R.submit st1.ring, st1.reg⟩).1 ∧
      evs = .alloc id :: .ins id reg1 :: loopEvs ++
        [.notify, (reapStep R ⟨R.submit st1.ring, st1.reg⟩).2] := by
  simp only [handleSignal] at h
  split at h
  · exact absurd h (by simp)
  · rename_i id reg1 heq
    split at h
    · rename_i st1 loopEvs hloop
      injection h with h1
      injection h1 with h1 h2
      exact ⟨id, reg1, st1, loopEvs, heq, hloop, h1.symm, h2.symm⟩
    · exact absurd h (by simp)

/-- Registry retention through the retry loop: if `id` is registered when the
loop starts and no completion bearing `id` is drained before the successful
push, then `id` is still registered (to the same sender) at every push
attempt's registry snapshot and when the loop ends. -/
theorem pushLoop_retention {σ : Type} (R : RingOps σ) :
    ∀ (fuel : Nat) (st st' : WState σ) (e : SEntry) (evs : List Ev) (id tx : Nat),
      lookupK id st.reg.senders = some tx →
      pushLoop R fuel st (some e) = .ok st' evs →
      DrainsAvoidBefore id evs →
      lookupK id st'.reg.senders = some tx ∧
      (∀ e1 rg, (Ev.pushOk e1 rg ∈ evs ∨ Ev.pushFail e1 rg ∈ evs) →
        lookupK id rg.senders = some tx) := by
  intro fuel
  induction fuel with
  | zero =>
    intro st st' e evs id tx hl h hav
    simp [pushLoop] at h
  | succ fuel ih =>
    intro st st' e evs id tx hl h hav
    simp only [pushLoop] at h
    split at h
    · injection h with h1 h2
      subst h2
      subst h1
      refine ⟨hl, ?_⟩
      intro e1 rg hmem
      rcases hmem with hmem | hmem
      · simp at hmem
        obtain ⟨he1, hrg⟩ := hmem
        subst hrg
        exact hl
      · simp at hmem
    · rename_i r' e' hpush
      split at h
      · rename_i stf evsf hrec
        injection h with h1 h2
        subst h2
        subst h1
        rw [reapStep_snd] at hav
        simp only [DrainsAvoidBefore] at hav
        obtain ⟨hav1, hav2⟩ := hav
        have hav1' : ∀ c ∈ (R.completion r').2, c.ud ≠ id := by
          intro c hc
          exact hav1 c hc
        have hl2 : lookupK id (reapStep R ⟨r', st.reg⟩).1.reg.senders = some tx := by
          rw [reapStep_fst]
          exact (batch_complete_lookup _ _ _ hav1').trans hl
        obtain ⟨hend, hsnap⟩ :=
          ih ⟨R.submit (reapStep R ⟨r', st.reg⟩).1.ring, (reapStep R ⟨r', st.reg⟩).1.reg⟩
            _ _ _ id tx hl2 hrec hav2
        refine ⟨hend, ?_⟩
        intro e1 rg hmem
        rcases hmem with hmem | hmem <;> rcases List.mem_cons.mp hmem with hh | hmem
        · exact absurd hh (by simp)
        · rcases List.mem_cons.mp hmem with hh | hmem
          · rw [reapStep_snd] at hh
            exact absurd hh (by simp)
          · rcases List.mem_cons.mp hmem with hh | hmem
            · exact absurd hh (by simp)
            · exact hsnap e1 rg (Or.inl hmem)
        · simp at hh
          obtain ⟨he1, hrg⟩ := hh
          subst hrg
          exact hl
        · rcases List.mem_cons.mp hmem with hh | hmem
          · rw [reapStep_snd] at hh
            exact absurd hh (by simp)
          · rcases List.mem_cons.mp hmem with hh | hmem
            · exact absurd hh (by simp)
            · exact hsnap e1 rg (Or.inr hmem)
      · exact absurd h (by simp)
      · exact absurd h (by simp)


/-! ## Claim C4 -/

/-- C4: on every Entry signal the worker allocates a fresh tracking
identifier from the Registry's allocator (fresh: not currently a key) and
stamps it into the entry via `set_ud` before insertion and push: the trace
begins with that allocation and insertion, and the first push attempt
carries `e.set_ud id` — whose user data is `id` regardless of any identifier
the caller had already set on `e`. -/
theorem entry_allocates_and_stamps {σ : Type} (R : RingOps σ) (fuel : Nat)
    (st st' : WState σ) (e : SEntry) (tx : Nat) (evs : List Ev)
    (h : handleSignal R fuel st (.entry e tx) = some (st', evs)) :
    ∃ id reg1 loopEvs lastEv,
      st.reg.next_uuid = some (id, reg1) ∧
      st.reg.hasKey id = false ∧
      SEntry.get_ud (SEntry.set_ud e id) = id ∧
      evs = .alloc id :: .ins id reg1 :: loopEvs ++ [.notify, lastEv] ∧
      (loopEvs.head? = some (.pushOk (e.set_ud id) (reg1.insert id tx)) ∨
        loopEvs.head? = some (.pushFail (e.set_ud id) (reg1.insert id tx))) := by
  obtain ⟨id, reg1, st1, loopEvs, heq, hloop, hst, hevs⟩ :=
    handleSignal_entry_decomp R fuel st st' e tx evs h
  have hfresh := nextUuidAux_fresh U64 st.reg id reg1 heq
  refine ⟨id, reg1, loopEvs, _, heq, hfresh.2, rfl, hevs, ?_⟩
  exact pushLoop_head R fuel _ _ _ _ hloop

/-- Witness for C4: on the toy ring the caller's identifier `42` is
overwritten by the freshly allocated `0` before the first push. -/
theorem entry_allocates_and_stamps_witness :
    ∃ id reg1 loopEvs lastEv,
      Registry.next_uuid Registry.new = some (id, reg1) ∧
      Registry.hasKey Registry.new id = false ∧
      SEntry.get_ud (SEntry.set_ud ⟨42, 8⟩ id) = id ∧
      [Ev.alloc 0, Ev.ins 0 { senders := [], curr_ud := 1 },
        Ev.pushFail ⟨0, 8⟩ { senders := [(0, 9)], curr_ud := 1 },
        Ev.reapEv [] [], Ev.notify,
        Ev.pushOk ⟨0, 8⟩ { senders := [(0, 9)], curr_ud := 1 },
        Ev.notify, Ev.reapEv [] []] =
          .alloc id :: .ins id reg1 :: loopEvs ++ [.notify, lastEv] ∧
      (loopEvs.head? = some (.pushOk (SEntry.set_ud ⟨42, 8⟩ id) (reg1.insert id 9)) ∨
        loopEvs.head? = some (.pushFail (SEntry.set_ud ⟨42, 8⟩ id) (reg1.insert id 9))) :=
  entry_allocates_and_stamps toyRing 2 ⟨(0, []), Registry.new⟩
    ⟨(2, []), { senders := [(0, 9)], curr_ud := 1 }⟩ ⟨42, 8⟩ 9 _ rfl

/-! ## Claim C5 -/

/-- C5: on every Entry signal the worker inserts the pair
`(id, reply-sender)` into the Registry strictly before its first push
attempt — the `ins` event precedes the whole push-retry trace — and,
provided the ring does not produce a completion bearing `id` before the
entry is accepted, the pair remains registered across every failed push
retry: each push event's registry snapshot still maps `id` to the sender, so
the worker never attempts a push whose id is not already a Registry key. -/
theorem insert_before_push_and_retained {σ : Type} (R : RingOps σ) (fuel : Nat)
    (st st' : WState σ) (e : SEntry) (tx : Nat) (evs : List Ev)
    (h : handleSignal R fuel st (.entry e tx) = some (st', evs)) :
    ∃ (id : Nat) (reg1 : Registry) (st1 : WState σ) (loopEvs : List Ev),
      st.reg.next_uuid = some (id, reg1) ∧
      evs = .alloc id :: .ins id reg1 :: loopEvs ++
        [.notify, (reapStep R ⟨R.submit st1.ring, st1.reg⟩).2] ∧
      (DrainsAvoidBefore id loopEvs →
        lookupK id st1.reg.senders = some tx ∧
        ∀ e1 rg, (Ev.pushOk e1 rg ∈ loopEvs ∨ Ev.pushFail e1 rg ∈ loopEvs) →
          lookupK id rg.senders = some tx) := by
  obtain ⟨id, reg1, st1, loopEvs, heq, hloop, hst, hevs⟩ :=
    handleSignal_entry_decomp R fuel st st' e tx evs h
  refine ⟨id, reg1, st1, loopEvs, heq, hevs, ?_⟩
  intro hav
  have hl0 : lookupK id (Registry.insert reg1 id tx).senders = some tx := by
    simp [Registry.insert, lookupK_insertK]
  exact pushLoop_retention R fuel _ _ _ _ id tx hl0 hloop hav

/-- Witness for C5: in the concrete run with one failed push, the id `0`
stays mapped to sender `9` at both push attempts and at the loop's end. -/
theorem insert_before_push_and_retained_witness :
    ∃ (id : Nat) (reg1 : Registry) (st1 : WState (Nat × List (List CEntry)))
      (loopEvs : List Ev),
      Registry.next_uuid Registry.new = some (id, reg1) ∧
      [Ev.alloc 0, Ev.ins 0 { senders := [], curr_ud := 1 },
        Ev.pushFail ⟨0, 8⟩ { senders := [(0, 9)], curr_ud := 1 },
        Ev.reapEv [] [], Ev.notify,
        Ev.pushOk ⟨0, 8⟩ { senders := [(0, 9)], curr_ud := 1 },
        Ev.notify, Ev.reapEv [] []] =
          .alloc id :: .ins id reg1 :: loopEvs ++
            [.notify, (reapStep toyRing ⟨toyRing.submit st1.ring, st1.reg⟩).2] ∧
      (DrainsAvoidBefore id loopEvs →
        lookupK id st1.reg.senders = some 9 ∧
        ∀ e1 rg, (Ev.pushOk e1 rg ∈ loopEvs ∨ Ev.pushFail e1 rg ∈ loopEvs) →
          lookupK id rg.senders = some 9) :=
  insert_before_push_and_retained toyRing 2 ⟨(0, []), Registry.new⟩
    ⟨(2, []), { senders := [(0, 9)], curr_ud := 1 }⟩ ⟨42, 8⟩ 9 _ rfl

/-! ## Claim C7 -/

/-- C7: on every Entry signal, immediately after the push succeeds the
worker asks the ring to notify its backend and then performs exactly one
additional proactive drain of completions, even though no Reap signal was
requested: the trace ends `pushOk`, `notify`, `reapEv`, and no successful
push occurs earlier. -/
theorem entry_success_notify_and_drain {σ : Type} (R : RingOps σ) (fuel : Nat)
    (st st' : WState σ) (e : SEntry) (tx : Nat) (evs : List Ev)
    (h : handleSignal R fuel st (.entry e tx) = some (st', evs)) :
    ∃ pre e1 rg cs ds,
      evs = pre ++ [.pushOk e1 rg, .notify, .reapEv cs ds] ∧
      pre.countP isPushOk = 0 := by
  obtain ⟨id, reg1, st1, loopEvs, heq, hloop, hst, hevs⟩ :=
    handleSignal_entry_decomp R fuel st st' e tx evs h
  obtain ⟨pre1, e1, rg, hle, hcnt⟩ := pushLoop_last_push R fuel _ _ _ _ hloop
  refine ⟨.alloc id :: .ins id reg1 :: pre1, e1, rg,
    (R.completion (R.submit st1.ring)).2,
    (st1.reg.batch_complete (R.completion (R.submit st1.ring)).2).2, ?_, ?_⟩
  · rw [hevs, hle, reapStep_snd]
    simp
  · simp [List.countP_cons, isPushOk, hcnt]

/-- Witness for C7: the concrete Entry run ends with the successful push,
one backend notification, and one proactive drain. -/
theorem entry_success_notify_and_drain_witness :
    ∃ pre e1 rg cs ds,
      [Ev.alloc 0, Ev.ins 0 { senders := [], curr_ud := 1 },
        Ev.pushFail ⟨0, 8⟩ { senders := [(0, 9)], curr_ud := 1 },
        Ev.reapEv [] [], Ev.notify,
        Ev.pushOk ⟨0, 8⟩ { senders := [(0, 9)], curr_ud := 1 },
        Ev.notify, Ev.reapEv [] []] =
          pre ++ [.pushOk e1 rg, .notify, .reapEv cs ds] ∧
      pre.countP isPushOk = 0 :=
  entry_success_notify_and_drain toyRing 2 ⟨(0, []), Registry.new⟩
    ⟨(2, []), { senders := [(0, 9)], curr_ud := 1 }⟩ ⟨42, 8⟩ 9 _ rfl

/-! ## Claim C8 -/

/-- C8: on a Reap signal the worker drains the currently available
completions into the Registry and performs no submission side-effects: the
new state is exactly `batch_complete` of the drained snapshot applied to the
registry (which never adds a key and leaves the allocator counter
untouched) with the ring advanced only by its completion drain, and the
trace is a single reap event — no allocation, no insertion, no push attempt
and no backend notification. -/
theorem reap_signal_frame {σ : Type} (R : RingOps σ) (fuel : Nat) (st : WState σ) :
    handleSignal R fuel st .reap =
      some (⟨(R.completion st.ring).1, (st.reg.batch_complete (R.completion st.ring).2).1⟩,
        [.reapEv (R.completion st.ring).2 (st.reg.batch_complete (R.completion st.ring).2).2]) ∧
    (st.reg.batch_complete (R.completion st.ring).2).1.curr_ud = st.reg.curr_ud ∧
    (∀ x, (st.reg.batch_complete (R.completion st.ring).2).1.hasKey x = true →
      st.reg.hasKey x = true) ∧
    (∀ ev ∈ [Ev.reapEv (R.completion st.ring).2
        (st.reg.batch_complete (R.completion st.ring).2).2],
      isSubmissionEffect ev = false) := by
  refine ⟨rfl, batch_complete_curr_ud _ _, ?_, ?_⟩
  · intro x hx
    exact ((batch_complete_hasKey _ _ _).mp hx).1
  · intro ev hev
    simp only [List.mem_singleton] at hev
    subst hev
    rfl

/-- Witness for C8: a concrete Reap on the toy ring drains one completion,
removes only its key, keeps the counter, and emits no submission effect. -/
theorem reap_signal_frame_witness :
    handleSignal toyRing 0 ⟨(5, [[⟨2, 0⟩]]), { senders := [(2, 7)], curr_ud := 3 }⟩ .reap =
      some (⟨(5, []), { senders := [], curr_ud := 3 }⟩,
        [.reapEv [⟨2, 0⟩] [(7, ⟨2, 0⟩)]]) ∧
    (Registry.batch_complete { senders := [(2, 7)], curr_ud := 3 } [⟨2, 0⟩]).1.curr_ud = 3 ∧
    (∀ x, (Registry.batch_complete { senders := [(2, 7)], curr_ud := 3 } [⟨2, 0⟩]).1.hasKey x = true →
      Registry.hasKey { senders := [(2, 7)], curr_ud := 3 } x = true) ∧
    (∀ ev ∈ [Ev.reapEv [(⟨2, 0⟩ : CEntry)] [(7, ⟨2, 0⟩)]], isSubmissionEffect ev = false) :=
  reap_signal_frame toyRing 0 ⟨(5, [[⟨2, 0⟩]]), { senders := [(2, 7)], curr_ud := 3 }⟩

/-! ## Claim C2 -/

/-- C2: when a push fails because the queue is full, the worker reaps
completions into the Registry, notifies the ring's backend and retries the
push with the very same entry, repeating until the push succeeds; across the
whole retry loop the entry is never dropped (every attempt, including the
final successful one, carries it) and it is pushed successfully exactly
once. Stated for rings honouring the documented push contract (a failed
push returns the entry it was given). -/
theorem entry_push_retry {σ : Type} (R : RingOps σ) (hpc : PushContract R) :
    ∀ (fuel : Nat) (st st' : WState σ) (e : SEntry) (evs : List Ev),
      pushLoop R fuel st (some e) = .ok st' evs →
      RetryShape e evs ∧ evs.countP isPushOk = 1 := by
  intro fuel
  induction fuel with
  | zero =>
    intro st st' e evs h
    simp [pushLoop] at h
  | succ fuel ih =>
    intro st st' e evs h
    simp only [pushLoop] at h
    split at h
    · injection h with h1 h2
      subst h2
      exact ⟨RetryShape.done st.reg, by simp [List.countP_cons, isPushOk]⟩
    · rename_i r' e' hpush
      split at h
      · rename_i stf evsf hrec
        injection h with h1 h2
        subst h2
        obtain rfl : e' = e := hpc _ _ _ _ hpush
        obtain ⟨hshape, hcnt⟩ := ih _ _ _ _ hrec
        constructor
        · rw [reapStep_snd]
          exact RetryShape.step _ _ _ _ hshape
        · simp [List.countP_cons, isPushOk, hcnt, reapStep_snd]
      · exact absurd h (by simp)
      · exact absurd h (by simp)

/-- Witness for C2: on the toy ring, whose push fails once and then succeeds,
the loop's trace is one failed attempt, a reap, a backend notification and
the single successful push of the same entry. -/
theorem entry_push_retry_witness :
    RetryShape ⟨0, 8⟩
      [.pushFail ⟨0, 8⟩ Registry.new, .reapEv [] [], .notify, .pushOk ⟨0, 8⟩ Registry.new] ∧
    List.countP isPushOk
      [.pushFail ⟨0, 8⟩ Registry.new, .reapEv [] [], .notify, .pushOk ⟨0, 8⟩ Registry.new] = 1 :=
  entry_push_retry toyRing toyRing_contract 2 ⟨(0, []), Registry.new⟩
    ⟨(2, []), Registry.new⟩ ⟨0, 8⟩ _ rfl

/-! ## The Registry key-set invariant -/

theorem mem_filter_not_udMem (x : Nat) (out : List Nat) (cs : List CEntry) :
    (x ∈ out.filter fun u => !udMem u cs) ↔ (x ∈ out ∧ ∀ c ∈ cs, c.ud ≠ x) := by
  rw [List.mem_filter]
  simp [udMem, List.any_eq_true]

theorem drainsAvoidBefore_append_left (id : Nat) :
    ∀ (l1 l2 : List Ev), DrainsAvoidBefore id (l1 ++ l2) → DrainsAvoidBefore id l1 := by
  intro l1
  induction l1 with
  | nil =>
    intro l2 h
    simp [DrainsAvoidBefore]
  | cons ev t ih =>
    intro l2 h
    cases ev with
    | reapEv cs ds =>
      simp only [List.cons_append, DrainsAvoidBefore] at h ⊢
      exact ⟨h.1, ih l2 h.2⟩
    | pushOk e rg =>
      simp only [DrainsAvoidBefore]
    | alloc i =>
      simp only [List.cons_append, DrainsAvoidBefore] at h ⊢
      exact ih l2 h
    | ins i rg =>
      simp only [List.cons_append, DrainsAvoidBefore] at h ⊢
      exact ih l2 h
    | pushFail e rg =>
      simp only [List.cons_append, DrainsAvoidBefore] at h ⊢
      exact ih l2 h
    | notify =>
      simp only [List.cons_append, DrainsAvoidBefore] at h ⊢
      exact ih l2 h

/-- Through a successful retry loop, the Registry's key set tracks the ghost
outstanding set: starting from keys `= {id} ∪ out` with the stamped entry
carrying `id`, and with no completion bearing `id` drained before
acceptance, the final keys are exactly `runOut` of the loop's trace. -/
theorem pushLoop_outstanding {σ : Type} (R : RingOps σ) (hpc : PushContract R) :
    ∀ (fuel : Nat) (st st' : WState σ) (e : SEntry) (evs : List Ev) (id : Nat)
      (out : List Nat),
      SEntry.get_ud e = id →
      (∀ x, st.reg.hasKey x = true ↔ (x = id ∨ x ∈ out)) →
      pushLoop R fuel st (some e) = .ok st' evs →
      DrainsAvoidBefore id evs →
      (∀ x, st'.reg.hasKey x = true ↔ x ∈ runOut out evs) := by
  intro fuel
  induction fuel with
  | zero =>
    intro st st' e evs id out hud hinv h hav
    simp [pushLoop] at h
  | succ fuel ih =>
    intro st st' e evs id out hud hinv h hav
    simp only [pushLoop] at h
    split at h
    · injection h with h1 h2
      subst h2
      subst h1
      intro x
      show st.reg.hasKey x = true ↔ x ∈ runOut out [Ev.pushOk e st.reg]
      rw [hinv x]
      simp [runOut, updOut, hud]
    · rename_i r' e' hpush
      split at h
      · rename_i stf evsf hrec
        injection h with h1 h2
        subst h2
        subst h1
        rw [reapStep_snd] at hav
        simp only [DrainsAvoidBefore] at hav
        obtain ⟨hav1, hav2⟩ := hav
        obtain rfl : e = e' := (hpc _ _ _ _ hpush).symm
        have hinv2 : ∀ x,
            ((st.reg.batch_complete (R.completion r').2).1.hasKey x = true) ↔
            (x = id ∨ x ∈ out.filter fun u => !udMem u (R.completion r').2) := by
          intro x
          rw [batch_complete_hasKey, hinv x, mem_filter_not_udMem]
          constructor
          · rintro ⟨hor, havx⟩
            rcases hor with rfl | hx
            · exact Or.inl rfl
            · exact Or.inr ⟨hx, havx⟩
          · rintro (rfl | ⟨hx, havx⟩)
            · exact ⟨Or.inl rfl, fun c hc => hav1 c hc⟩
            · exact ⟨Or.inr hx, havx⟩
        have hstep := ih
          ⟨R.submit (reapStep R ⟨r', st.reg⟩).1.ring, (reapStep R ⟨r', st.reg⟩).1.reg⟩
          stf e evsf id (out.filter fun u => !udMem u (R.completion r').2)
          hud hinv2 hrec hav2
        intro x
        rw [reapStep_snd]
        have hrun : runOut out
            (Ev.pushFail e st.reg ::
              Ev.reapEv (R.completion r').2 (st.reg.batch_complete (R.completion r').2).2 ::
              Ev.notify :: evsf) =
            runOut (out.filter fun u => !udMem u (R.completion r').2) evsf := by
          simp [runOut, updOut]
        rw [hrun]
        exact hstep x
      · exact absurd h (by simp)
      · exact absurd h (by simp)

/-! ## Claim C1 -/

/-- C1: Registry key-set invariant at worker idle points. If, when a signal
arrives, the Registry's key set equals the ghost set `out` of identifiers of
submissions accepted onto the ring whose completion the worker has not yet
observed, then after the signal is fully processed the key set equals the
ghost set evolved by the trace (`runOut`: a successful push makes its id
outstanding, draining a completion retires its id) — provided the ring,
honouring its contracts, neither alters a failed entry nor produces a
completion bearing an id before the submission carrying it was accepted.
Moreover no identifier is ever inserted a second time without first being
removed: at the trace's unique insertion, the inserted id is not a key. -/
theorem worker_registry_invariant {σ : Type} (R : RingOps σ) (hpc : PushContract R)
    (fuel : Nat) (st st' : WState σ) (sig : Signal) (out : List Nat) (evs : List Ev)
    (hkeys : ∀ x, st.reg.hasKey x = true ↔ x ∈ out)
    (h : handleSignal R fuel st sig = some (st', evs))
    (hgood : ∀ id rg, Ev.ins id rg ∈ evs → DrainsAvoidBefore id evs) :
    (∀ x, st'.reg.hasKey x = true ↔ x ∈ runOut out evs) ∧
    (∀ id rg, Ev.ins id rg ∈ evs → rg.hasKey id = false) := by
  cases sig with
  | reap =>
    simp only [handleSignal] at h
    injection h with h1
    injection h1 with ha hb
    subst ha
    subst hb
    constructor
    · intro x
      show ((st.reg.batch_complete (R.completion st.ring).2).1.hasKey x = true) ↔
        x ∈ runOut out [(reapStep R st).2]
      rw [reapStep_snd, batch_complete_hasKey, hkeys x]
      show (x ∈ out ∧ ∀ c ∈ (R.completion st.ring).2, c.ud ≠ x) ↔
        x ∈ runOut out [Ev.reapEv (R.completion st.ring).2
          (st.reg.batch_complete (R.completion st.ring).2).2]
      rw [show runOut out [Ev.reapEv (R.completion st.ring).2
            (st.reg.batch_complete (R.completion st.ring).2).2] =
          out.filter (fun u => !udMem u (R.completion st.ring).2) from rfl,
        mem_filter_not_udMem]
    · intro id rg hmem
      rw [reapStep_snd] at hmem
      simp at hmem
  | entry e tx =>
    obtain ⟨id, reg1, st1, loopEvs, heq, hloop, hst, hevs⟩ :=
      handleSignal_entry_decomp R fuel st st' e tx evs h
    have hfresh := nextUuidAux_fresh U64 st.reg id reg1 heq
    have hins_mem : Ev.ins id reg1 ∈ evs := by
      rw [hevs]
      simp
    have hav0 := hgood id reg1 hins_mem
    rw [hevs] at hav0
    simp only [DrainsAvoidBefore] at hav0
    have havLoop : DrainsAvoidBefore id loopEvs :=
      drainsAvoidBefore_append_left id loopEvs _ hav0
    have hinv0 : ∀ x, ((Registry.insert reg1 id tx).hasKey x = true) ↔
        (x = id ∨ x ∈ out) := by
      intro x
      show ((lookupK x (insertK id tx reg1.senders)).isSome = true) ↔ _
      rw [lookupK_insertK]
      by_cases hx : x = id
      · simp [hx]
      · rw [if_neg hx]
        rw [hfresh.1]
        show (st.reg.hasKey x = true) ↔ _
        rw [hkeys x]
        constructor
        · exact Or.inr
        · rintro (rfl | hx')
          · exact absurd rfl hx
          · exact hx'
    have hout1 := pushLoop_outstanding R hpc fuel ⟨st.ring, Registry.insert reg1 id tx⟩
      st1 (e.set_ud id) loopEvs id out rfl hinv0 hloop havLoop
    constructor
    · intro x
      rw [hst]
      show ((st1.reg.batch_complete (R.completion (R.submit st1.ring)).2).1.hasKey x = true) ↔ _
      rw [batch_complete_hasKey, hout1 x]
      have hrun : runOut out evs =
          (runOut out loopEvs).filter
            (fun u => !udMem u (R.completion (R.submit st1.ring)).2) := by
        rw [hevs, reapStep_snd]
        show runOut out (Ev.alloc id :: Ev.ins id reg1 :: (loopEvs ++
          [Ev.notify, Ev.reapEv (R.completion (R.submit st1.ring)).2
            (st1.reg.batch_complete (R.completion (R.submit st1.ring)).2).2])) = _
        simp [runOut, updOut, List.foldl_append]
      rw [hrun, mem_filter_not_udMem]
    · intro id' rg hmem
      rw [hevs, reapStep_snd] at hmem
      simp only [List.mem_cons, List.mem_append, List.mem_singleton] at hmem
      rcases hmem with (hm | hm | hm) | hm | hm
      · exact absurd hm (by simp)
      · injection hm with h1 h2
        subst h1
        subst h2
        show (lookupK id' rg.senders).isSome = false
        rw [hfresh.1]
        exact hfresh.2
      · have hno := (pushLoop_no_ins R fuel _ _ _ _ hloop _ hm).1 id' rg
        exact absurd rfl hno
      · exact absurd hm (by simp)
      · exact absurd hm (by simp)

/-- Witness for C1: starting from the empty registry (keys = no outstanding
ids), after one Entry signal on the toy ring the keys are exactly the ghost
outstanding set evolved by the trace, and the single insertion was fresh. -/
theorem worker_registry_invariant_witness :
    (∀ x, Registry.hasKey { senders := [(0, 9)], curr_ud := 1 } x = true ↔
      x ∈ runOut []
        [Ev.alloc 0, Ev.ins 0 { senders := [], curr_ud := 1 },
          Ev.pushFail ⟨0, 8⟩ { senders := [(0, 9)], curr_ud := 1 },
          Ev.reapEv [] [], Ev.notify,
          Ev.pushOk ⟨0, 8⟩ { senders := [(0, 9)], curr_ud := 1 },
          Ev.notify, Ev.reapEv [] []]) ∧
    (∀ id rg, Ev.ins id rg ∈
        [Ev.alloc 0, Ev.ins 0 { senders := [], curr_ud := 1 },
          Ev.pushFail ⟨0, 8⟩ { senders := [(0, 9)], curr_ud := 1 },
          Ev.reapEv [] [], Ev.notify,
          Ev.pushOk ⟨0, 8⟩ { senders := [(0, 9)], curr_ud := 1 },
          Ev.notify, Ev.reapEv [] []] → rg.hasKey id = false) :=
  worker_registry_invariant toyRing toyRing_contract 2 ⟨(0, []), Registry.new⟩
    ⟨(2, []), { senders := [(0, 9)], curr_ud := 1 }⟩ (.entry ⟨42, 8⟩ 9) []
    [Ev.alloc 0, Ev.ins 0 { senders := [], curr_ud := 1 },
      Ev.pushFail ⟨0, 8⟩ { senders := [(0, 9)], curr_ud := 1 },
      Ev.reapEv [] [], Ev.notify,
      Ev.pushOk ⟨0, 8⟩ { senders := [(0, 9)], curr_ud := 1 },
      Ev.notify, Ev.reapEv [] []]
    (by intro x; simp [Registry.hasKey, Registry.new, lookupK])
    rfl
    (by
      intro id rg hmem
      simp [DrainsAvoidBefore])
